import Mathlib

/-!
# Founders directory: filter pipeline and pagination

A shallow embedding of the filter/pagination logic of `src/pages/Founders.js`
(`applyFilters`, `handleClearFilters`, `totalPages`, `currentFounders`, and the
effect that re-runs the filter and resets the page) and theorems about it.

JavaScript values are embedded as the type `JSVal`; an exception raised by the
JavaScript code is embedded as `Except.error`.  A founder record is a plain
data object: reading one of its properties yields the stored value, or
`undefined` when the property is missing.
-/

namespace Founders

/-! ## JavaScript values -/

/-- A JavaScript value, as far as the filter code can observe it.
`num` stands for a number: the code only observes whether it is truthy, and
`NaN` behaves like `num 0` in every operation below.  `object` stands for any
non-array object (a function included) that has no callable `toLowerCase` or
`includes` property of its own. -/
inductive JSVal where
  | undefined
  | null
  | bool (b : Bool)
  | num (n : Int)
  | str (s : String)
  | arr (xs : List JSVal)
  | object

/-- The exceptions the filter code can raise: reading a property of
`undefined`/`null`, or calling something that is not a function. -/
inductive JSError where
  | typeError
  deriving DecidableEq, Repr

/-- ToBoolean: `undefined`, `null`, `false`, `0`/`NaN` and `''` are falsy. -/
def JSVal.truthy : JSVal → Bool
  | .undefined => false
  | .null => false
  | .bool b => b
  | .num n => n != 0
  | .str s => s != ""
  | .arr _ => true
  | .object => true

/-- The test `Array.isArray(v)`. -/
def JSVal.isArray : JSVal → Bool
  | .arr _ => true
  | _ => false

/-- The comparison `v === s` for a string `s` (also SameValueZero of `v` and `s`):
true exactly when `v` is the string `s`. -/
def JSVal.strictEqStr : JSVal → String → Bool
  | .str t, s => t == s
  | _, _ => false

/-- `String.prototype.includes` on character sequences: `q` occurs in `s` as a
contiguous block.  Strings are sequences of Unicode characters (well-formed
UTF-16, for which the code-unit and the character-wise test agree). -/
def strIncludes : List Char → List Char → Bool
  | [], q => q.isEmpty
  | c :: s, q => q.isPrefixOf (c :: s) || strIncludes s q

/-- The method call `v.toLowerCase()`.  Only a string has the method; on
`undefined`/`null` the property read raises, on any other value the call of
`undefined` raises.  `lower` is the case mapping of the JavaScript engine. -/
def JSVal.toLowerCase (lower : String → String) : JSVal → Except JSError String
  | .str s => .ok (lower s)
  | _ => .error .typeError

/-- The method call `v.includes(s)` with a string argument `s`: substring test
on a string, SameValueZero membership on an array, a TypeError on anything
else. -/
def JSVal.includes : JSVal → String → Except JSError Bool
  | .str t, s => .ok (strIncludes t.data s.data)
  | .arr xs, s => .ok (xs.any (fun x => x.strictEqStr s))
  | _, _ => .error .typeError

/-! ## Data model -/

/-- A founder record: the properties `applyFilters` reads.  A missing property
is `JSVal.undefined`. -/
structure Founder where
  name : JSVal
  company : JSVal
  bio : JSVal
  location : JSVal
  age : JSVal
  gender : JSVal
  ethnicity : JSVal
  industry : JSVal
  interests : JSVal
  lookingFor : JSVal
  fundingSeries : JSVal
  education : JSVal

/-- The nine filter values of the component state; each is a string, `''`
meaning that the dimension is not active. -/
structure Criteria where
  searchQuery : String
  location : String
  age : String
  gender : String
  ethnicity : String
  industryFocus : String
  interest : String
  fundingStage : String
  education : String
  deriving DecidableEq, Repr

/-- The criteria `handleClearFilters` establishes: every setter is called with `''`. -/
def handleClearFilters (_c : Criteria) : Criteria :=
  { searchQuery := "", location := "", age := "", gender := "", ethnicity := "",
    industryFocus := "", interest := "", fundingStage := "", education := "" }

/-! ## The filter engine -/

/-- `Array.prototype.filter` with a callback that may raise: the callback runs
on every element in order, and the first exception aborts the whole call. -/
def filterE (p : Founder → Except JSError Bool) : List Founder → Except JSError (List Founder)
  | [] => .ok []
  | f :: fs =>
    match p f with
    | .error e => .error e
    | .ok b =>
      match filterE p fs with
      | .error e => .error e
      | .ok rest => .ok (if b then f :: rest else rest)

/-- The own properties of the object literal `industryMap`. -/
def industryMapOwn : List (String × List String) :=
  [ ("Tech", ["Software & Tech", "AI & Machine Learning", "Crypto & Blockchain"]),
    ("Finance", ["Fintech"]),
    ("Healthcare", ["Healthcare"]),
    ("Education", ["Education"]),
    ("Other", ["E-commerce", "Clean Energy", "Consumer Goods", "B2B Services"]) ]

/-- The property names an object literal inherits from `Object.prototype`
(ECMAScript, properties of the Object prototype object, in an environment
that has not extended it); each yields a function, and `__proto__` yields the
prototype object itself. -/
def objectPrototypeKeys : List String :=
  [ "constructor", "hasOwnProperty", "isPrototypeOf", "propertyIsEnumerable",
    "toLocaleString", "toString", "valueOf", "__proto__",
    "__defineGetter__", "__defineSetter__", "__lookupGetter__", "__lookupSetter__" ]

/-- What `industryMap[industryFocus] || []` can evaluate to: an array of
strings, or a truthy non-array object without an `includes` method (an
inherited property of `Object.prototype`). -/
inductive Mapped where
  | array (xs : List String)
  | inherited

/-- The expression `industryMap[industryFocus] || []`: an own property yields
its array, an inherited one is truthy and is kept, and for any other key the
read yields `undefined` and the fallback `[]` is taken. -/
def mappedIndustries (industryFocus : String) : Mapped :=
  match industryMapOwn.lookup industryFocus with
  | some xs => .array xs
  | none => if objectPrototypeKeys.contains industryFocus then .inherited else .array []

/-- The method call `mappedIndustries.includes(v)`: SameValueZero membership
of `v` in an array of strings; a TypeError when the receiver has no
`includes` method. -/
def Mapped.includes : Mapped → JSVal → Except JSError Bool
  | .array xs, v => .ok (xs.any (fun s => v.strictEqStr s))
  | .inherited, _ => .error .typeError

/-- The callback of the search filter, `query` being `searchQuery.toLowerCase()`:
`founder.name.toLowerCase().includes(query) ||
 founder.company.toLowerCase().includes(query) ||
 (founder.bio && founder.bio.toLowerCase().includes(query))`,
evaluated left to right with short-circuiting. -/
def searchPred (lower : String → String) (query : String) (founder : Founder) :
    Except JSError Bool :=
  match founder.name.toLowerCase lower with
  | .error e => .error e
  | .ok n =>
    if strIncludes n.data query.data then .ok true
    else
      match founder.company.toLowerCase lower with
      | .error e => .error e
      | .ok c =>
        if strIncludes c.data query.data then .ok true
        else if founder.bio.truthy then
          match founder.bio.toLowerCase lower with
          | .error e => .error e
          | .ok b => .ok (strIncludes b.data query.data)
        else .ok false

/-- The callback of the location filter:
`founder.location && founder.location.includes(location)`. -/
def locationPred (location : String) (founder : Founder) : Except JSError Bool :=
  if founder.location.truthy then founder.location.includes location else .ok false

/-- One operand of the `||` in the callback of the interest filter:
`v && Array.isArray(v) && v.includes(interest)`. -/
def interestSide (interest : String) (v : JSVal) : Except JSError Bool :=
  if v.truthy && v.isArray then v.includes interest else .ok false

/-- The callback of the interest filter:
`(founder.interests && Array.isArray(founder.interests) && founder.interests.includes(interest)) ||
 (founder.lookingFor && Array.isArray(founder.lookingFor) && founder.lookingFor.includes(interest))`. -/
def interestPred (interest : String) (founder : Founder) : Except JSError Bool :=
  match interestSide interest founder.interests with
  | .error e => .error e
  | .ok true => .ok true
  | .ok false => interestSide interest founder.lookingFor

/-- One `if (value) { results = results.filter(callback) }` block: skipped
when the criterion is the empty string. -/
def stage (value : String) (callback : Founder → Except JSError Bool)
    (results : List Founder) : Except JSError (List Founder) :=
  if value ≠ "" then filterE callback results else .ok results

/-- The function `applyFilters` up to its result `results` (the list handed to
`setFilteredFounders`): a copy of `founders` narrowed by the nine blocks in
source order. -/
def applyFilters (lower : String → String) (founders : List Founder) (c : Criteria) :
    Except JSError (List Founder) := do
  let results := founders
  let results ← stage c.searchQuery (searchPred lower (lower c.searchQuery)) results
  let results ← stage c.location (locationPred c.location) results
  let results ← stage c.age (fun founder => .ok (founder.age.strictEqStr c.age)) results
  let results ← stage c.gender (fun founder => .ok (founder.gender.strictEqStr c.gender)) results
  let results ← stage c.ethnicity
    (fun founder => .ok (founder.ethnicity.strictEqStr c.ethnicity)) results
  let results ← stage c.industryFocus
    (fun founder => (mappedIndustries c.industryFocus).includes founder.industry) results
  let results ← stage c.interest (interestPred c.interest) results
  let results ← stage c.fundingStage
    (fun founder => .ok (founder.fundingSeries.strictEqStr c.fundingStage)) results
  let results ← stage c.education
    (fun founder => .ok (founder.education.strictEqStr c.education)) results
  return results

/-- The nine blocks of `applyFilters` as a list, in source order: the
criterion that guards each block and the callback it filters with. -/
def stages (lower : String → String) (c : Criteria) :
    List (String × (Founder → Except JSError Bool)) :=
  [ (c.searchQuery, searchPred lower (lower c.searchQuery)),
    (c.location, locationPred c.location),
    (c.age, fun founder => .ok (founder.age.strictEqStr c.age)),
    (c.gender, fun founder => .ok (founder.gender.strictEqStr c.gender)),
    (c.ethnicity, fun founder => .ok (founder.ethnicity.strictEqStr c.ethnicity)),
    (c.industryFocus, fun founder => (mappedIndustries c.industryFocus).includes founder.industry),
    (c.interest, interestPred c.interest),
    (c.fundingStage, fun founder => .ok (founder.fundingSeries.strictEqStr c.fundingStage)),
    (c.education, fun founder => .ok (founder.education.strictEqStr c.education)) ]

/-- Running a list of blocks one after the other. -/
def runStages : List (String × (Founder → Except JSError Bool)) → List Founder →
    Except JSError (List Founder)
  | [], results => .ok results
  | s :: ss, results =>
    match stage s.1 s.2 results with
    | .error e => .error e
    | .ok results => runStages ss results

/-! ## The matching rules in the words of the specification -/

/-- The value is a string. -/
def JSVal.isString : JSVal → Bool
  | .str _ => true
  | _ => false

/-- A record as the data model describes it: `name` and `company` are
strings; `bio` and `location` are each absent (falsy) or a string. -/
def Founder.wellFormed (f : Founder) : Bool :=
  f.name.isString && f.company.isString &&
  (!f.bio.truthy || f.bio.isString) && (!f.location.truthy || f.location.isString)

/-- The string `q` is a substring of the string `s`. -/
def IsSubstring (q s : String) : Prop := q.data <:+: s.data

/-- The field `v` is a string whose lower-cased form has the lower-cased
query as a substring. -/
def LowerContains (lower : String → String) (q : String) (v : JSVal) : Prop :=
  ∃ s, v = .str s ∧ IsSubstring (lower q) (lower s)

/-- Search: the lower-cased query is a substring of the lower-cased name,
company or present bio. -/
def SearchMatches (lower : String → String) (q : String) (f : Founder) : Prop :=
  LowerContains lower q f.name ∨ LowerContains lower q f.company ∨
  (f.bio.truthy = true ∧ LowerContains lower q f.bio)

/-- The value contains the string: as a substring when the value is a string,
as an element when it is an array. -/
def JSVal.Contains : JSVal → String → Prop
  | .str s, q => IsSubstring q s
  | .arr xs, q => JSVal.str q ∈ xs
  | _, _ => False

/-- Location: the location is present and contains the selected string. -/
def LocationMatches (loc : String) (f : Founder) : Prop :=
  f.location.truthy = true ∧ f.location.Contains loc

/-- Industry focus: the founder's industry is in the list the bucket maps to. -/
def IndustryMatches (focus : String) (f : Founder) : Prop :=
  ∃ xs, (focus, xs) ∈ industryMapOwn ∧ ∃ s ∈ xs, f.industry = .str s

/-- The tag is an element of the array `v`. -/
def TagIn (tag : String) (v : JSVal) : Prop :=
  ∃ xs, v = .arr xs ∧ JSVal.str tag ∈ xs

/-- Interest: the tag is in the interests array or in the lookingFor array. -/
def InterestMatches (tag : String) (f : Founder) : Prop :=
  TagIn tag f.interests ∨ TagIn tag f.lookingFor

/-- The record satisfies every active (non-empty) dimension of the criteria. -/
def SatisfiesAll (lower : String → String) (c : Criteria) (f : Founder) : Prop :=
  (c.searchQuery ≠ "" → SearchMatches lower c.searchQuery f) ∧
  (c.location ≠ "" → LocationMatches c.location f) ∧
  (c.age ≠ "" → f.age = .str c.age) ∧
  (c.gender ≠ "" → f.gender = .str c.gender) ∧
  (c.ethnicity ≠ "" → f.ethnicity = .str c.ethnicity) ∧
  (c.industryFocus ≠ "" → IndustryMatches c.industryFocus f) ∧
  (c.interest ≠ "" → InterestMatches c.interest f) ∧
  (c.fundingStage ≠ "" → f.fundingSeries = .str c.fundingStage) ∧
  (c.education ≠ "" → f.education = .str c.education)

/-! ## Pagination -/

/-- The constant `foundersPerPage`. -/
def foundersPerPage : Nat := 6

/-- The expression `Math.ceil(filteredFounders.length / foundersPerPage)`: the
quotient is taken in the rationals and rounded up.  (An array length is below
2^32, where the double-precision quotient by 6 rounds up to the same integer.) -/
def totalPages (filteredFounders : List Founder) : Nat :=
  ⌈((filteredFounders.length : ℚ) / (foundersPerPage : ℚ))⌉₊

/-- `Array.prototype.slice(start, stop)` with integer arguments: a negative
index counts from the end, both indices are clipped to the array, and the
elements from the first index up to but excluding the second are copied. -/
def slice {α : Type} (l : List α) (start stop : Int) : List α :=
  let len : Int := l.length
  let first := if start < 0 then max (len + start) 0 else min start len
  let final := if stop < 0 then max (len + stop) 0 else min stop len
  (l.drop first.toNat).take (final - first).toNat

/-- The expression
`filteredFounders.slice((page - 1) * foundersPerPage, page * foundersPerPage)`. -/
def currentFounders (filteredFounders : List Founder) (page : Int) : List Founder :=
  slice filteredFounders ((page - 1) * foundersPerPage) (page * foundersPerPage)

/-! ## Sample data -/

/-- ASCII case mapping, an instance of `lower` on which examples are evaluated. -/
def asciiLower (s : String) : String := String.mk (s.data.map Char.toLower)

/-- A record without any of the properties. -/
def noFields : Founder :=
  { name := .undefined, company := .undefined, bio := .undefined, location := .undefined,
    age := .undefined, gender := .undefined, ethnicity := .undefined, industry := .undefined,
    interests := .undefined, lookingFor := .undefined, fundingSeries := .undefined,
    education := .undefined }

/-- A complete record. -/
def ada : Founder :=
  { name := .str "Ada Byron", company := .str "Fintastic", bio := .str "Payments for everyone",
    location := .str "Austin, TX", age := .str "25-34", gender := .str "Female",
    ethnicity := .str "White", industry := .str "Fintech",
    interests := .arr [.str "Funding", .str "Growth"], lookingFor := .arr [.str "Mentorship"],
    fundingSeries := .str "Seed", education := .str "Master" }

/-- A record without bio, location, interests and lookingFor. -/
def bo : Founder :=
  { noFields with
    name := .str "Bo Chen", company := .str "Chainworks",
    industry := .str "Crypto & Blockchain", age := .str "35-44" }

/-- A record with a company but no name. -/
def nameless : Founder :=
  { noFields with
    company := .str "Acme", industry := .str "Fintech" }

/-- Criteria with no active dimension. -/
def noCriteria : Criteria := ⟨"", "", "", "", "", "", "", "", ""⟩

/-- Search text `FIN` as the only active criterion. -/
def searchFin : Criteria := { noCriteria with searchQuery := "FIN" }

/-- Search text `ch` and age bracket `35-44`. -/
def searchChAge : Criteria := { noCriteria with searchQuery := "ch", age := "35-44" }

/-- Industry focus `Finance` and interest `Mentorship`. -/
def financeMentorship : Criteria :=
  { noCriteria with industryFocus := "Finance", interest := "Mentorship" }

/-- Search text `a` as the only active criterion. -/
def searchA : Criteria := { noCriteria with searchQuery := "a" }

/-- Industry focus `constructor` as the only active criterion. -/
def focusConstructor : Criteria := { noCriteria with industryFocus := "constructor" }

/-- Industry focus `Space`, which is no key of `industryMap`, as the only
active criterion. -/
def focusSpace : Criteria := { noCriteria with industryFocus := "Space" }

/-- A record with the tag `Mentorship` in interests and no lookingFor. -/
def cy : Founder :=
  { noFields with
    name := .str "Cy Ng", company := .str "Pitchly",
    interests := .arr [.str "Growth", .str "Mentorship"] }

/-- A record with the tag `Mentorship` in lookingFor and no interests. -/
def dee : Founder :=
  { noFields with
    name := .str "Dee Ruiz", company := .str "Loopcart",
    lookingFor := .arr [.str "Mentorship"] }

/-- A record whose company is `Fintastic` and that has no bio. -/
def finn : Founder :=
  { noFields with
    name := .str "Grace Hopper", company := .str "Fintastic" }

/-- Interest `Mentorship` as the only active criterion. -/
def mentorshipOnly : Criteria := { noCriteria with interest := "Mentorship" }

/-- Search text `fin` as the only active criterion. -/
def searchFinLower : Criteria := { noCriteria with searchQuery := "fin" }

/-! ## Component state and the filter effect -/

/-- The part of the component state the effect reads and writes: the memoised
`founders` list, the nine filter values, `filteredFounders` and `page`. -/
structure State where
  founders : List Founder
  criteria : Criteria
  filteredFounders : List Founder
  page : Int

/-- A change of a dependency of the effect: a call of one of the nine
criterion setters with a value, or a new `founders` array (the memo recomputed
because `allUsers` changed). -/
inductive Change where
  | setSearchQuery (v : String)
  | setLocation (v : String)
  | setAge (v : String)
  | setGender (v : String)
  | setEthnicity (v : String)
  | setIndustryFocus (v : String)
  | setInterest (v : String)
  | setFundingStage (v : String)
  | setEducation (v : String)
  | newFounders (fs : List Founder)

/-- The state after the change itself: the setter stores its value; `page` and
`filteredFounders` are not touched. -/
def Change.apply (s : State) : Change → State
  | .setSearchQuery v => { s with criteria := { s.criteria with searchQuery := v } }
  | .setLocation v => { s with criteria := { s.criteria with location := v } }
  | .setAge v => { s with criteria := { s.criteria with age := v } }
  | .setGender v => { s with criteria := { s.criteria with gender := v } }
  | .setEthnicity v => { s with criteria := { s.criteria with ethnicity := v } }
  | .setIndustryFocus v => { s with criteria := { s.criteria with industryFocus := v } }
  | .setInterest v => { s with criteria := { s.criteria with interest := v } }
  | .setFundingStage v => { s with criteria := { s.criteria with fundingStage := v } }
  | .setEducation v => { s with criteria := { s.criteria with education := v } }
  | .newFounders fs => { s with founders := fs }

/-- Whether the dependency array
`[founders, searchQuery, location, age, gender, ethnicity, industryFocus,
interest, fundingStage, education]` differs after the change: a new `founders`
array is a new reference, a filter value is compared as a string. -/
def Change.changesDeps (s : State) : Change → Bool
  | .newFounders _ => true
  | ch => (ch.apply s).criteria != s.criteria

/-- The body of the effect: `let mounted = true; applyFilters();`, where
`applyFilters` ends with
`if (mounted) { setFilteredFounders(results); setPage(1); }`.  An exception
of the filter code leaves the effect before any setter is called. -/
def runEffect (lower : String → String) (s : State) : Except JSError State :=
  let mounted := true
  match applyFilters lower s.founders s.criteria with
  | .error e => .error e
  | .ok results =>
    if mounted then .ok { s with filteredFounders := results, page := 1 } else .ok s

/-- One step of the component: the change is stored, and the effect runs when
its dependency array differs from the previous one. -/
def step (lower : String → String) (s : State) (ch : Change) : Except JSError State :=
  if ch.changesDeps s then runEffect lower (ch.apply s) else .ok (ch.apply s)

/-- A state on page 7 of a two-element list, out of range for any filtered list. -/
def farPage : State :=
  { founders := [ada, bo], criteria := noCriteria, filteredFounders := [ada, bo], page := 7 }

end Founders

/-! ## Theorems -/

namespace Founders

theorem applyFilters_eq_runStages (lower : String → String) (E : List Founder) (c : Criteria) :
    applyFilters lower E c = runStages (stages lower c) E := by
  simp only [applyFilters, stages, runStages, bind, Except.bind, pure, Except.pure]
  repeat (first | rfl | (split <;> rename_i h <;> simp only [h]))

theorem strIncludes_iff (s q : List Char) : strIncludes s q = true ↔ q <:+: s := by
  induction s with
  | nil => simp [strIncludes, List.isEmpty_iff]
  | cons c s ih =>
    simp only [strIncludes, Bool.or_eq_true, ih, List.isPrefixOf_iff_prefix]
    rw [List.infix_cons_iff]


/-- A successful `filterE` evaluated its callback successfully on every
element and kept, in order, exactly those on which it returned `true`. -/
theorem filterE_eq_ok {p : Founder → Except JSError Bool} :
    ∀ {l R : List Founder}, filterE p l = .ok R →
      R.Sublist l ∧ (∀ f ∈ R, p f = .ok true) ∧ (∀ f ∈ l, f ∉ R → p f = .ok false)
  | [], R, h => by
    simp only [filterE, Except.ok.injEq] at h
    subst h
    simp
  | f :: fs, R, h => by
    simp only [filterE] at h
    cases hp : p f with
    | error e => simp [hp] at h
    | ok b =>
      cases hr : filterE p fs with
      | error e => simp [hp, hr] at h
      | ok rest =>
        simp only [hp, hr, Except.ok.injEq] at h
        obtain ⟨hs, ht, hf⟩ := filterE_eq_ok hr
        cases b with
        | true =>
          simp only [if_true] at h
          subst h
          refine ⟨hs.cons₂ f, ?_, ?_⟩
          · intro g hg
            rcases List.mem_cons.1 hg with rfl | hg
            · exact hp
            · exact ht g hg
          · intro g hg hn
            rcases List.mem_cons.1 hg with rfl | hg
            · exact absurd (List.mem_cons_self _ _) hn
            · exact hf g hg (fun h => hn (List.mem_cons_of_mem _ h))
        | false =>
          simp only [Bool.false_eq_true, if_false] at h
          subst h
          refine ⟨hs.cons f, ht, ?_⟩
          intro g hg hn
          rcases List.mem_cons.1 hg with rfl | hg
          · exact hp
          · exact hf g hg hn

/-- When the callback returns `true` on every element, `filterE` keeps the list. -/
theorem filterE_of_all_true {p : Founder → Except JSError Bool} :
    ∀ {l : List Founder}, (∀ f ∈ l, p f = .ok true) → filterE p l = .ok l
  | [], _ => rfl
  | f :: fs, h => by
    have h1 := h f (List.mem_cons_self _ _)
    have h2 := filterE_of_all_true (l := fs) (fun g hg => h g (List.mem_cons_of_mem _ hg))
    simp [filterE, h1, h2]

/-- When the callback raises on no element, `filterE` returns a list. -/
theorem filterE_total {p : Founder → Except JSError Bool} :
    ∀ {l : List Founder}, (∀ f ∈ l, ∃ b, p f = .ok b) → ∃ R, filterE p l = .ok R
  | [], _ => ⟨[], rfl⟩
  | f :: fs, h => by
    obtain ⟨b, hb⟩ := h f (List.mem_cons_self _ _)
    obtain ⟨R, hR⟩ := filterE_total (l := fs) (fun g hg => h g (List.mem_cons_of_mem _ hg))
    exact ⟨if b then f :: R else R, by simp [filterE, hb, hR]⟩

theorem runStages_eq_ok :
    ∀ {ss : List (String × (Founder → Except JSError Bool))} {l R : List Founder},
      runStages ss l = .ok R →
      R.Sublist l ∧ (∀ f ∈ R, ∀ s ∈ ss, s.1 ≠ "" → s.2 f = .ok true) ∧
        (∀ f ∈ l, f ∉ R → ∃ s ∈ ss, s.1 ≠ "" ∧ s.2 f = .ok false)
  | [], l, R, h => by
    simp only [runStages, Except.ok.injEq] at h
    subst h
    simp
  | s :: ss, l, R, h => by
    simp only [runStages] at h
    cases hs : stage s.1 s.2 l with
    | error e => simp [hs] at h
    | ok r =>
      simp only [hs] at h
      obtain ⟨hsub, ht, hf⟩ := runStages_eq_ok h
      by_cases ha : s.1 ≠ ""
      · rw [stage, if_pos ha] at hs
        obtain ⟨hsub1, ht1, hf1⟩ := filterE_eq_ok hs
        refine ⟨hsub.trans hsub1, ?_, ?_⟩
        · intro f hfR t htm hne
          rcases List.mem_cons.1 htm with rfl | htm
          · exact ht1 f (hsub.subset hfR)
          · exact ht f hfR t htm hne
        · intro f hfl hfR
          by_cases hfr : f ∈ r
          · obtain ⟨t, htm, hne, hv⟩ := hf f hfr hfR
            exact ⟨t, List.mem_cons_of_mem _ htm, hne, hv⟩
          · exact ⟨s, List.mem_cons_self _ _, ha, hf1 f hfl hfr⟩
      · rw [stage, if_neg ha, Except.ok.injEq] at hs
        subst hs
        refine ⟨hsub, ?_, ?_⟩
        · intro f hfR t htm hne
          rcases List.mem_cons.1 htm with rfl | htm
          · exact absurd hne ha
          · exact ht f hfR t htm hne
        · intro f hfl hfR
          obtain ⟨t, htm, hne, hv⟩ := hf f hfl hfR
          exact ⟨t, List.mem_cons_of_mem _ htm, hne, hv⟩

theorem runStages_of_all_true :
    ∀ {ss : List (String × (Founder → Except JSError Bool))} {l : List Founder},
      (∀ f ∈ l, ∀ s ∈ ss, s.1 ≠ "" → s.2 f = .ok true) → runStages ss l = .ok l
  | [], _, _ => rfl
  | s :: ss, l, h => by
    have hs : stage s.1 s.2 l = .ok l := by
      by_cases ha : s.1 ≠ ""
      · rw [stage, if_pos ha]
        exact filterE_of_all_true (fun f hf => h f hf s (List.mem_cons_self _ _) ha)
      · rw [stage, if_neg ha]
    simp only [runStages, hs]
    exact runStages_of_all_true (fun f hf t ht => h f hf t (List.mem_cons_of_mem _ ht))

theorem runStages_total :
    ∀ {ss : List (String × (Founder → Except JSError Bool))} {l : List Founder},
      (∀ f ∈ l, ∀ s ∈ ss, s.1 ≠ "" → ∃ b, s.2 f = .ok b) → ∃ R, runStages ss l = .ok R
  | [], l, _ => ⟨l, rfl⟩
  | s :: ss, l, h => by
    have hs : ∃ r, stage s.1 s.2 l = .ok r ∧ r.Sublist l := by
      by_cases ha : s.1 ≠ ""
      · obtain ⟨r, hr⟩ := filterE_total (p := s.2) (l := l)
          (fun f hf => h f hf s (List.mem_cons_self _ _) ha)
        exact ⟨r, by rw [stage, if_pos ha]; exact hr, (filterE_eq_ok hr).1⟩
      · exact ⟨l, by rw [stage, if_neg ha], List.Sublist.refl l⟩
    obtain ⟨r, hr, hsub⟩ := hs
    simp only [runStages, hr]
    exact runStages_total (fun f hf t ht => h f (hsub.subset hf) t (List.mem_cons_of_mem _ ht))


theorem strictEqStr_iff (v : JSVal) (s : String) : v.strictEqStr s = true ↔ v = .str s := by
  cases v <;> simp [JSVal.strictEqStr]

theorem any_strictEqStr_iff (xs : List JSVal) (s : String) :
    xs.any (fun x => x.strictEqStr s) = true ↔ JSVal.str s ∈ xs := by
  simp [List.any_eq_true, strictEqStr_iff]

theorem includes_sound {v : JSVal} {s : String} {b : Bool} (h : v.includes s = .ok b) :
    b = true ↔ v.Contains s := by
  cases v <;> simp only [JSVal.includes, Except.ok.injEq, reduceCtorEq] at h
  · subst h
    simp [JSVal.Contains, IsSubstring, strIncludes_iff]
  · subst h
    simp only [JSVal.Contains, any_strictEqStr_iff]

theorem toLowerCase_eq_ok {lower : String → String} {v : JSVal} {t : String}
    (h : v.toLowerCase lower = .ok t) : ∃ s, v = .str s ∧ t = lower s := by
  cases v <;> simp only [JSVal.toLowerCase, Except.ok.injEq, reduceCtorEq] at h
  exact ⟨_, rfl, h.symm⟩

theorem lowerContains_str (lower : String → String) (q s : String) :
    LowerContains lower q (.str s) ↔ strIncludes (lower s).data (lower q).data = true := by
  simp [LowerContains, IsSubstring, strIncludes_iff]

theorem searchPred_sound {lower : String → String} {q : String} {f : Founder} {b : Bool}
    (h : searchPred lower (lower q) f = .ok b) : b = true ↔ SearchMatches lower q f := by
  unfold searchPred at h
  unfold SearchMatches
  cases hn : f.name.toLowerCase lower with
  | error e => simp [hn] at h
  | ok n =>
    obtain ⟨sn, hsn, rfl⟩ := toLowerCase_eq_ok hn
    simp only [hn] at h
    rw [hsn, lowerContains_str]
    by_cases h1 : strIncludes (lower sn).data (lower q).data = true
    · simp only [h1, if_true, Except.ok.injEq] at h
      simp [h1, ← h]
    · simp only [h1, if_false, Bool.false_eq_true] at h
      cases hc : f.company.toLowerCase lower with
      | error e => simp [hc] at h
      | ok c =>
        obtain ⟨sc, hsc, rfl⟩ := toLowerCase_eq_ok hc
        simp only [hc] at h
        rw [hsc, lowerContains_str]
        by_cases h2 : strIncludes (lower sc).data (lower q).data = true
        · simp only [h2, if_true, Except.ok.injEq] at h
          simp [h2, ← h]
        · simp only [h2, if_false, Bool.false_eq_true] at h
          by_cases h3 : f.bio.truthy = true
          · simp only [h3, if_true] at h
            cases hb : f.bio.toLowerCase lower with
            | error e => simp [hb] at h
            | ok t =>
              obtain ⟨sb, hsb, rfl⟩ := toLowerCase_eq_ok hb
              simp only [hb, Except.ok.injEq] at h
              rw [hsb, lowerContains_str]
              rw [hsb] at h3
              simp [h1, h2, h3, ← h]
          · simp only [h3, if_false, Except.ok.injEq, Bool.false_eq_true] at h
            simp [h1, h2, h3, ← h]

theorem locationPred_sound {loc : String} {f : Founder} {b : Bool}
    (h : locationPred loc f = .ok b) : b = true ↔ LocationMatches loc f := by
  unfold locationPred at h
  unfold LocationMatches
  by_cases ht : f.location.truthy = true
  · rw [if_pos ht] at h
    simp [ht, includes_sound h]
  · rw [if_neg ht, Except.ok.injEq] at h
    simp [ht, ← h]

theorem interestSide_ok (tag : String) (v : JSVal) :
    ∃ b, interestSide tag v = .ok b ∧ (b = true ↔ TagIn tag v) := by
  cases v <;> simp [interestSide, JSVal.truthy, JSVal.isArray, JSVal.includes, TagIn,
    strictEqStr_iff]

theorem interestPred_ok (tag : String) (f : Founder) :
    ∃ b, interestPred tag f = .ok b ∧ (b = true ↔ InterestMatches tag f) := by
  obtain ⟨b1, h1, e1⟩ := interestSide_ok tag f.interests
  obtain ⟨b2, h2, e2⟩ := interestSide_ok tag f.lookingFor
  unfold interestPred InterestMatches
  rw [h1]
  cases b1 with
  | true => exact ⟨true, rfl, by simp [← e1]⟩
  | false =>
    refine ⟨b2, h2, ?_⟩
    rw [e2, ← e1]
    simp

theorem industryMapOwn_lookup (k : String) (xs : List String) :
    industryMapOwn.lookup k = some xs ↔ (k, xs) ∈ industryMapOwn := by
  simp only [industryMapOwn, List.lookup, List.mem_cons, Prod.mk.injEq, List.mem_singleton,
    List.not_mem_nil, or_false]
  by_cases h1 : k = "Tech"
  · subst h1; simp [eq_comm]
  by_cases h2 : k = "Finance"
  · subst h2; simp [eq_comm]
  by_cases h3 : k = "Healthcare"
  · subst h3; simp [eq_comm]
  by_cases h4 : k = "Education"
  · subst h4; simp [eq_comm]
  by_cases h5 : k = "Other"
  · subst h5; simp [eq_comm]
  have e1 : (k == "Tech") = false := by simpa using h1
  have e2 : (k == "Finance") = false := by simpa using h2
  have e3 : (k == "Healthcare") = false := by simpa using h3
  have e4 : (k == "Education") = false := by simpa using h4
  have e5 : (k == "Other") = false := by simpa using h5
  simp [h1, h2, h3, h4, h5, e1, e2, e3, e4, e5]

theorem industry_sound {k : String} {v : JSVal} {b : Bool}
    (h : (mappedIndustries k).includes v = .ok b) :
    b = true ↔ ∃ xs, (k, xs) ∈ industryMapOwn ∧ ∃ s ∈ xs, v = .str s := by
  unfold mappedIndustries at h
  cases hl : industryMapOwn.lookup k with
  | some xs =>
    simp only [hl, Mapped.includes, Except.ok.injEq] at h
    subst h
    simp only [List.any_eq_true, strictEqStr_iff]
    constructor
    · rintro ⟨s, hs, hv⟩
      exact ⟨xs, (industryMapOwn_lookup k xs).1 hl, s, hs, hv⟩
    · rintro ⟨ys, hy, s, hs, hv⟩
      have := (industryMapOwn_lookup k ys).2 hy
      rw [hl] at this
      cases this
      exact ⟨s, hs, hv⟩
  | none =>
    simp only [hl] at h
    have hno : ∀ xs, (k, xs) ∉ industryMapOwn := by
      intro xs hx
      rw [← industryMapOwn_lookup, hl] at hx
      cases hx
    split at h
    · simp [Mapped.includes] at h
    · simp only [Mapped.includes, List.any_nil, Except.ok.injEq] at h
      subst h
      simp [hno]


theorem stages_sound {lower : String → String} {c : Criteria} {f : Founder}
    (h : ∀ s ∈ stages lower c, s.1 ≠ "" → s.2 f = .ok true) : SatisfiesAll lower c f := by
  simp only [stages, List.forall_mem_cons, List.not_mem_nil, false_implies, implies_true,
    and_true] at h
  obtain ⟨h1, h2, h3, h4, h5, h6, h7, h8, h9⟩ := h
  refine ⟨fun a => ?_, fun a => ?_, fun a => ?_, fun a => ?_, fun a => ?_, fun a => ?_,
    fun a => ?_, fun a => ?_, fun a => ?_⟩
  · exact (searchPred_sound (h1 a)).1 rfl
  · exact (locationPred_sound (h2 a)).1 rfl
  · exact (strictEqStr_iff _ _).1 (Except.ok.inj (h3 a))
  · exact (strictEqStr_iff _ _).1 (Except.ok.inj (h4 a))
  · exact (strictEqStr_iff _ _).1 (Except.ok.inj (h5 a))
  · exact (industry_sound (h6 a)).1 rfl
  · obtain ⟨b, hb, e⟩ := interestPred_ok c.interest f
    rw [h7 a, Except.ok.injEq] at hb
    exact e.1 hb.symm
  · exact (strictEqStr_iff _ _).1 (Except.ok.inj (h8 a))
  · exact (strictEqStr_iff _ _).1 (Except.ok.inj (h9 a))

theorem strictEqStr_false {v : JSVal} {s : String}
    (h : (Except.ok (v.strictEqStr s) : Except JSError Bool) = .ok false) : v ≠ .str s := by
  intro e
  have := (strictEqStr_iff v s).2 e
  rw [this] at h
  cases h

theorem stages_refute {lower : String → String} {c : Criteria} {f : Founder}
    (h : ∃ s ∈ stages lower c, s.1 ≠ "" ∧ s.2 f = .ok false) : ¬ SatisfiesAll lower c f := by
  simp only [stages, List.exists_mem_cons_iff, List.not_mem_nil, false_and, exists_false,
    or_false] at h
  rintro ⟨g1, g2, g3, g4, g5, g6, g7, g8, g9⟩
  rcases h with ⟨a, h⟩ | ⟨a, h⟩ | ⟨a, h⟩ | ⟨a, h⟩ | ⟨a, h⟩ | ⟨a, h⟩ | ⟨a, h⟩ | ⟨a, h⟩ | ⟨a, h⟩
  · exact Bool.false_ne_true ((searchPred_sound h).2 (g1 a))
  · exact Bool.false_ne_true ((locationPred_sound h).2 (g2 a))
  · exact strictEqStr_false h (g3 a)
  · exact strictEqStr_false h (g4 a)
  · exact strictEqStr_false h (g5 a)
  · exact Bool.false_ne_true ((industry_sound h).2 (g6 a))
  · obtain ⟨b, hb, e⟩ := interestPred_ok c.interest f
    rw [h, Except.ok.injEq] at hb
    exact Bool.false_ne_true (hb ▸ e.2 (g7 a))
  · exact strictEqStr_false h (g8 a)
  · exact strictEqStr_false h (g9 a)

theorem isString_iff (v : JSVal) : v.isString = true ↔ ∃ s, v = .str s := by
  cases v <;> simp [JSVal.isString]

theorem searchPred_total (lower : String → String) (q : String) {f : Founder}
    (hf : f.wellFormed = true) : ∃ b, searchPred lower q f = .ok b := by
  simp only [Founder.wellFormed, Bool.and_eq_true, Bool.or_eq_true, Bool.not_eq_true',
    isString_iff] at hf
  obtain ⟨⟨⟨⟨n, hn⟩, ⟨k, hk⟩⟩, hb⟩, _⟩ := hf
  unfold searchPred
  simp only [hn, hk, JSVal.toLowerCase]
  split
  · exact ⟨_, rfl⟩
  · split
    · exact ⟨_, rfl⟩
    · split
      · rename_i ht
        rcases hb with hb | ⟨b, hb⟩
        · rw [hb] at ht; cases ht
        · simp only [hb]
          exact ⟨_, rfl⟩
      · exact ⟨_, rfl⟩

theorem locationPred_total (loc : String) {f : Founder}
    (hf : f.wellFormed = true) : ∃ b, locationPred loc f = .ok b := by
  simp only [Founder.wellFormed, Bool.and_eq_true, Bool.or_eq_true, Bool.not_eq_true',
    isString_iff] at hf
  obtain ⟨_, hl⟩ := hf
  unfold locationPred
  split
  · rename_i ht
    rcases hl with hl | ⟨s, hs⟩
    · rw [hl] at ht; cases ht
    · simp only [hs, JSVal.includes]
      exact ⟨_, rfl⟩
  · exact ⟨_, rfl⟩

theorem industry_total {k : String} (hk : k ∉ objectPrototypeKeys) (v : JSVal) :
    ∃ b, (mappedIndustries k).includes v = .ok b := by
  unfold mappedIndustries
  have hc : objectPrototypeKeys.contains k = false := by
    simpa [List.contains_iff_exists_mem_beq] using hk
  cases industryMapOwn.lookup k with
  | some xs => exact ⟨_, rfl⟩
  | none =>
    simp only [hc, Bool.false_eq_true, if_false]
    exact ⟨_, rfl⟩

theorem stages_total {lower : String → String} {c : Criteria} {f : Founder}
    (hf : f.wellFormed = true) (hc : c.industryFocus ∉ objectPrototypeKeys) :
    ∀ s ∈ stages lower c, ∃ b, s.2 f = .ok b := by
  simp only [stages, List.forall_mem_cons, List.not_mem_nil, false_implies, implies_true,
    and_true]
  refine ⟨searchPred_total lower _ hf, locationPred_total _ hf, ⟨_, rfl⟩, ⟨_, rfl⟩, ⟨_, rfl⟩,
    industry_total hc _, ?_, ⟨_, rfl⟩, ⟨_, rfl⟩⟩
  obtain ⟨b, hb, _⟩ := interestPred_ok c.interest f
  exact ⟨b, hb⟩

/-- On well-formed records, and with an industry focus that is not a property
name inherited from `Object.prototype`, `applyFilters` returns a list. -/
theorem applyFilters_total (lower : String → String) (E : List Founder) (c : Criteria)
    (hE : ∀ f ∈ E, f.wellFormed = true) (hc : c.industryFocus ∉ objectPrototypeKeys) :
    ∃ R, applyFilters lower E c = .ok R := by
  rw [applyFilters_eq_runStages]
  exact runStages_total (fun f hf s hs _ => stages_total (hE f hf) hc s hs)


/-- Characterisation of a successful run, shared by the theorems below. -/
theorem applyFilters_ok_spec {lower : String → String} {E R : List Founder} {c : Criteria}
    (h : applyFilters lower E c = .ok R) :
    R.Sublist E ∧ (∀ f ∈ R, SatisfiesAll lower c f) ∧
      (∀ f ∈ E, f ∉ R → ¬ SatisfiesAll lower c f) ∧
      (∀ f ∈ R, ∀ s ∈ stages lower c, s.1 ≠ "" → s.2 f = .ok true) := by
  rw [applyFilters_eq_runStages] at h
  obtain ⟨hsub, ht, hf⟩ := runStages_eq_ok h
  exact ⟨hsub, fun f hfR => stages_sound (ht f hfR),
    fun f hfE hfR => stages_refute (hf f hfE hfR), ht⟩

/-- C1. Whenever `applyFilters` computes a list, that list contains exactly the
elements of the founder list that satisfy every active dimension of the
criteria: each element of the result is an element of the input satisfying all
active dimensions, and no element left out satisfies all of them.  On
well-formed records, with an industry focus that is not an inherited property
name, `applyFilters` does compute a list. -/
theorem applyFilters_exact (lower : String → String) (E : List Founder) (c : Criteria) :
    (∀ R, applyFilters lower E c = .ok R →
      (∀ f ∈ R, f ∈ E ∧ SatisfiesAll lower c f) ∧
      (∀ f ∈ E, f ∉ R → ¬ SatisfiesAll lower c f)) ∧
    ((∀ f ∈ E, f.wellFormed = true) → c.industryFocus ∉ objectPrototypeKeys →
      ∃ R, applyFilters lower E c = .ok R) := by
  refine ⟨fun R h => ?_, applyFilters_total lower E c⟩
  obtain ⟨hsub, hs, hn, _⟩ := applyFilters_ok_spec h
  exact ⟨fun f hf => ⟨hsub.subset hf, hs f hf⟩, hn⟩

/-- C2. Whenever `applyFilters` computes a list, that list is a subsequence of
the founder list (only elements of the input, none more often than in the
input, in the input order); on well-formed records, with an industry focus
that is not an inherited property name, it does compute one. -/
theorem applyFilters_sublist (lower : String → String) (E : List Founder) (c : Criteria) :
    (∀ R, applyFilters lower E c = .ok R → R.Sublist E) ∧
    ((∀ f ∈ E, f.wellFormed = true) → c.industryFocus ∉ objectPrototypeKeys →
      ∃ R, applyFilters lower E c = .ok R ∧ R.Sublist E) := by
  refine ⟨fun R h => (applyFilters_ok_spec h).1, fun hE hc => ?_⟩
  obtain ⟨R, hR⟩ := applyFilters_total lower E c hE hc
  exact ⟨R, hR, (applyFilters_ok_spec hR).1⟩

/-- C3. `handleClearFilters` sets all nine filter values to the empty string,
and with those criteria `applyFilters` returns the founder list unchanged. -/
theorem applyFilters_cleared (lower : String → String) (E : List Founder) (c : Criteria) :
    handleClearFilters c = ⟨"", "", "", "", "", "", "", "", ""⟩ ∧
    applyFilters lower E (handleClearFilters c) = .ok E := by
  refine ⟨rfl, ?_⟩
  rw [applyFilters_eq_runStages]
  apply runStages_of_all_true
  intro f _ s hs hne
  simp only [stages, handleClearFilters, List.mem_cons, List.not_mem_nil, or_false] at hs
  rcases hs with rfl | rfl | rfl | rfl | rfl | rfl | rfl | rfl | rfl <;> exact absurd rfl hne

/-- C4. Filtering is idempotent: when `applyFilters` returns a list, applying
it with the same criteria to that list returns the same list. -/
theorem applyFilters_idempotent (lower : String → String) (E R : List Founder) (c : Criteria)
    (h : applyFilters lower E c = .ok R) : applyFilters lower R c = .ok R := by
  rw [applyFilters_eq_runStages]
  exact runStages_of_all_true (applyFilters_ok_spec h).2.2.2

/-- Witness of `applyFilters_exact`: two records, search text `FIN`. -/
theorem applyFilters_exact_witness :
    applyFilters asciiLower [ada, bo] searchFin = .ok [ada] ∧
    ((∀ f ∈ [ada], f ∈ [ada, bo] ∧ SatisfiesAll asciiLower searchFin f) ∧
      (∀ f ∈ [ada, bo], f ∉ [ada] → ¬ SatisfiesAll asciiLower searchFin f)) ∧
    (∃ R, applyFilters asciiLower [ada, bo] searchFin = .ok R) :=
  ⟨rfl, (applyFilters_exact asciiLower [ada, bo] searchFin).1 [ada] rfl,
    (applyFilters_exact asciiLower [ada, bo] searchFin).2
      (by
        intro f hf
        simp only [List.mem_cons, List.not_mem_nil, or_false] at hf
        rcases hf with rfl | rfl <;> rfl)
      (by decide)⟩

/-- Witness of `applyFilters_sublist`: two records, search text `ch` and an age bracket. -/
theorem applyFilters_sublist_witness :
    applyFilters asciiLower [ada, bo] searchChAge = .ok [bo] ∧ [bo].Sublist [ada, bo] ∧
    (∃ R, applyFilters asciiLower [ada, bo] searchChAge = .ok R ∧ R.Sublist [ada, bo]) :=
  ⟨rfl, (applyFilters_sublist asciiLower [ada, bo] searchChAge).1 [bo] rfl,
    (applyFilters_sublist asciiLower [ada, bo] searchChAge).2
      (by
        intro f hf
        simp only [List.mem_cons, List.not_mem_nil, or_false] at hf
        rcases hf with rfl | rfl <;> rfl)
      (by decide)⟩

/-- Witness of `applyFilters_idempotent`: industry focus `Finance` with interest `Mentorship`. -/
theorem applyFilters_idempotent_witness :
    applyFilters asciiLower [bo, ada, bo] financeMentorship = .ok [ada] ∧
    applyFilters asciiLower [ada] financeMentorship = .ok [ada] :=
  ⟨rfl, applyFilters_idempotent asciiLower [bo, ada, bo] [ada] financeMentorship rfl⟩

/-- C8, counterexample. A record without a name makes the search filter raise:
the callback reads `founder.name.toLowerCase` on `undefined`. -/
theorem applyFilters_raises_without_name :
    nameless.name = .undefined ∧
    searchPred asciiLower (asciiLower searchA.searchQuery) nameless = .error .typeError ∧
    applyFilters asciiLower [nameless] searchA = .error .typeError :=
  ⟨rfl, rfl, rfl⟩

/-- A truthy location that is neither a string nor an array makes the location
filter raise. -/
theorem locationPred_raises_on_number :
    locationPred "Austin" { ada with location := .num 5 } = .error .typeError := rfl

/-- C8, amended. On records whose name and company are strings and whose bio
and location are each absent (falsy) or a string, and with an industry focus
that is not a property name inherited from `Object.prototype`, `applyFilters`
returns a list and no callback raises on any record; an absent bio adds no
match to the search dimension, an absent location does not match the location
dimension, and interests and lookingFor that are both not arrays do not match
the interest dimension. -/
theorem no_raise_on_wellFormed (lower : String → String) (E : List Founder) (c : Criteria)
    (hE : ∀ f ∈ E, f.wellFormed = true) (hc : c.industryFocus ∉ objectPrototypeKeys) :
    (∃ R, applyFilters lower E c = .ok R) ∧
    ∀ f ∈ E,
      (∀ s ∈ stages lower c, ∃ b, s.2 f = .ok b) ∧
      (f.bio.truthy = false → ∃ b, searchPred lower (lower c.searchQuery) f = .ok b ∧
        (b = true ↔ LowerContains lower c.searchQuery f.name ∨
          LowerContains lower c.searchQuery f.company)) ∧
      (f.location.truthy = false → locationPred c.location f = .ok false) ∧
      (f.interests.isArray = false → f.lookingFor.isArray = false →
        interestPred c.interest f = .ok false) := by
  refine ⟨applyFilters_total lower E c hE hc, fun f hf => ⟨stages_total (hE f hf) hc, ?_, ?_, ?_⟩⟩
  · intro hb
    obtain ⟨b, h⟩ := searchPred_total lower (lower c.searchQuery) (hE f hf)
    refine ⟨b, h, ?_⟩
    rw [searchPred_sound h]
    simp [SearchMatches, hb]
  · intro hl
    simp [locationPred, hl]
  · intro h1 h2
    simp [interestPred, interestSide, h1, h2]

/-- Witness of `no_raise_on_wellFormed`: a complete record and one without bio,
location, interests and lookingFor. -/
theorem no_raise_on_wellFormed_witness :
    (∃ R, applyFilters asciiLower [ada, bo] financeMentorship = .ok R) ∧
    ∀ f ∈ [ada, bo],
      (∀ s ∈ stages asciiLower financeMentorship, ∃ b, s.2 f = .ok b) ∧
      (f.bio.truthy = false →
        ∃ b, searchPred asciiLower (asciiLower financeMentorship.searchQuery) f = .ok b ∧
        (b = true ↔ LowerContains asciiLower financeMentorship.searchQuery f.name ∨
          LowerContains asciiLower financeMentorship.searchQuery f.company)) ∧
      (f.location.truthy = false → locationPred financeMentorship.location f = .ok false) ∧
      (f.interests.isArray = false → f.lookingFor.isArray = false →
        interestPred financeMentorship.interest f = .ok false) :=
  no_raise_on_wellFormed asciiLower [ada, bo] financeMentorship
    (by
      intro f hf
      simp only [List.mem_cons, List.not_mem_nil, or_false] at hf
      rcases hf with rfl | rfl <;> rfl)
    (by decide)

/-- C9, counterexample. `constructor` is a non-empty string that is not one of
the five keys of `industryMap`, yet `industryMap['constructor']` is the
inherited constructor function, the fallback `[]` is not taken, and the filter
raises on a non-empty founder list instead of returning the empty result. -/
theorem industryFocus_constructor_raises :
    focusConstructor.industryFocus = "constructor" ∧
    focusConstructor.industryFocus ≠ "" ∧
    "constructor" ∉ ["Tech", "Finance", "Healthcare", "Education", "Other"] ∧
    industryMapOwn.lookup "constructor" = none ∧
    (mappedIndustries "constructor").includes ada.industry = .error .typeError ∧
    applyFilters asciiLower [ada] focusConstructor = .error .typeError :=
  ⟨rfl, by decide, by decide, rfl, rfl, rfl⟩

/-- A non-empty industry focus that is neither a key of `industryMap` nor a
property name inherited from `Object.prototype` maps to the empty list, and
the industry block returns the empty list. -/
theorem unknown_focus_empty (k : String) (hne : k ≠ "")
    (hown : industryMapOwn.lookup k = none) (hk : k ∉ objectPrototypeKeys)
    (results : List Founder) :
    stage k (fun founder => (mappedIndustries k).includes founder.industry) results = .ok [] := by
  have hm : ∀ v, (mappedIndustries k).includes v = .ok false := by
    intro v
    simp [mappedIndustries, hown, hk, Mapped.includes]
  rw [stage, if_pos hne]
  simp only [hm]
  induction results with
  | nil => rfl
  | cons f fs ih => simp [filterE, ih]

/-- C10. With industry focus `Tech` as the only active criterion,
`applyFilters` returns a list, and a founder is in it exactly when the founder
is in the input and its industry is `Software & Tech`, `AI & Machine Learning`
or `Crypto & Blockchain`. -/
theorem tech_focus_exact (lower : String → String) (E : List Founder) :
    ∃ R, applyFilters lower E ⟨"", "", "", "", "", "Tech", "", "", ""⟩ = .ok R ∧
      R.Sublist E ∧
      ∀ f, f ∈ R ↔ f ∈ E ∧ (f.industry = .str "Software & Tech" ∨
        f.industry = .str "AI & Machine Learning" ∨ f.industry = .str "Crypto & Blockchain") := by
  have key : ∀ f, SatisfiesAll lower ⟨"", "", "", "", "", "Tech", "", "", ""⟩ f ↔
      (f.industry = .str "Software & Tech" ∨
        f.industry = .str "AI & Machine Learning" ∨ f.industry = .str "Crypto & Blockchain") := by
    intro f
    simp [SatisfiesAll, IndustryMatches, industryMapOwn]
  have htot : ∃ R, applyFilters lower E ⟨"", "", "", "", "", "Tech", "", "", ""⟩ = .ok R := by
    rw [applyFilters_eq_runStages]
    apply runStages_total
    intro f _ s hs hne
    simp only [stages, List.mem_cons, List.not_mem_nil, or_false] at hs
    rcases hs with rfl | rfl | rfl | rfl | rfl | rfl | rfl | rfl | rfl
    all_goals first
      | exact absurd rfl hne
      | exact industry_total (k := "Tech") (by decide) _
  obtain ⟨R, hR⟩ := htot
  obtain ⟨hsub, hs, hn, _⟩ := applyFilters_ok_spec hR
  refine ⟨R, hR, hsub, fun f => ⟨fun hf => ⟨hsub.subset hf, (key f).1 (hs f hf)⟩, ?_⟩⟩
  rintro ⟨hfE, hind⟩
  by_contra hfR
  exact hn f hfE hfR ((key f).2 hind)

theorem totalPages_le_iff (l : List Founder) (k : Nat) :
    totalPages l ≤ k ↔ l.length ≤ 6 * k := by
  unfold totalPages foundersPerPage
  rw [Nat.ceil_le, div_le_iff₀ (by norm_num)]
  norm_cast
  rw [Nat.mul_comm]

theorem totalPages_eq (l : List Founder) : totalPages l = (l.length + 5) / 6 := by
  apply le_antisymm
  · rw [totalPages_le_iff]; omega
  · have := (totalPages_le_iff l (totalPages l)).1 le_rfl
    omega

theorem slice_nat {α : Type} (l : List α) (a b : Nat) :
    slice l (a : Int) (b : Int) = (l.drop a).take (b - a) := by
  unfold slice
  have h1 : ¬ ((a : Int) < 0) := by omega
  have h2 : ¬ ((b : Int) < 0) := by omega
  simp only [if_neg h1, if_neg h2]
  by_cases ha : a ≤ l.length
  · have e1 : (min (a : Int) (l.length : Int)).toNat = a := by omega
    rw [e1, List.take_eq_take]
    simp only [List.length_drop]
    omega
  · have e1 : (min (a : Int) (l.length : Int)).toNat = l.length := by omega
    rw [e1, List.drop_length, List.drop_eq_nil_of_le (by omega)]
    simp

theorem currentFounders_nat (l : List Founder) (p : Nat) (hp : 1 ≤ p) :
    currentFounders l (p : Int) = (l.drop ((p - 1) * 6)).take 6 := by
  unfold currentFounders foundersPerPage
  have e1 : ((p : Int) - 1) * ((6 : Nat) : Int) = (((p - 1) * 6 : Nat) : Int) := by
    push_cast [Nat.cast_sub hp]; ring
  have e2 : (p : Int) * ((6 : Nat) : Int) = ((p * 6 : Nat) : Int) := by push_cast; ring
  rw [e1, e2, slice_nat]
  congr 1
  omega

theorem pages_flatten (l : List Founder) (n : Nat) :
    ((List.range n).map (fun i => (l.drop (i * 6)).take 6)).flatten = l.take (n * 6) := by
  induction n with
  | zero => simp
  | succ n ih =>
    rw [List.range_succ, List.map_append, List.flatten_append, ih]
    simp only [List.map_cons, List.map_nil, List.flatten_cons, List.flatten_nil, List.append_nil]
    rw [Nat.succ_mul, List.take_add]

theorem currentFounders_length (l : List Founder) (p : Nat) (hp : 1 ≤ p) :
    (currentFounders l (p : Int)).length = min 6 (l.length - (p - 1) * 6) := by
  rw [currentFounders_nat l p hp, List.length_take, List.length_drop]

/-- C5. With `foundersPerPage = 6`, `totalPages` is the ceiling of the list
length over 6, that is the least `k` with `6 * k ≥ length`; it is 0 exactly for
the empty list, and 3 for a list of 14 elements. -/
theorem totalPages_spec (l : List Founder) :
    foundersPerPage = 6 ∧
    (l.length ≤ 6 * totalPages l ∧ ∀ k : Nat, l.length ≤ 6 * k → totalPages l ≤ k) ∧
    (totalPages l = 0 ↔ l = []) ∧
    (l.length = 14 → totalPages l = 3) := by
  refine ⟨rfl, ⟨(totalPages_le_iff l _).1 le_rfl, fun k hk => (totalPages_le_iff l k).2 hk⟩, ?_, ?_⟩
  · rw [totalPages_eq, ← List.length_eq_zero]
    omega
  · intro h
    rw [totalPages_eq, h]

/-- Witness of `totalPages_spec`: a list of 14 records has 3 pages. -/
theorem totalPages_spec_witness :
    (List.replicate 14 ada).length = 14 ∧ totalPages (List.replicate 14 ada) = 3 ∧
    (14 ≤ 6 * 3 → totalPages (List.replicate 14 ada) ≤ 3) :=
  ⟨rfl, (totalPages_spec (List.replicate 14 ada)).2.2.2 rfl,
    (totalPages_spec (List.replicate 14 ada)).2.1.2 3⟩

/-- C6. The pages `currentFounders` computes for page 1 up to `totalPages`
cover the list exactly once: concatenated in page order they give the list
back, their lengths add up to its length, every page but the last has 6
elements, the last has between 1 and 6, and for 14 elements page 3 has 2. -/
theorem pages_cover (l : List Founder) :
    ((List.range (totalPages l)).map
      (fun i : Nat => currentFounders l ((i : Int) + 1))).flatten = l ∧
    ((List.range (totalPages l)).map
      (fun i : Nat => (currentFounders l ((i : Int) + 1)).length)).sum = l.length ∧
    (∀ p : Nat, 1 ≤ p → p < totalPages l → (currentFounders l (p : Int)).length = 6) ∧
    (1 ≤ totalPages l → 1 ≤ (currentFounders l (totalPages l : Int)).length ∧
      (currentFounders l (totalPages l : Int)).length ≤ 6) ∧
    (l.length = 14 → (currentFounders l 3).length = 2) := by
  have hpage : ∀ i : Nat, currentFounders l ((i : Int) + 1) = (l.drop (i * 6)).take 6 := by
    intro i
    have := currentFounders_nat l (i + 1) (by omega)
    simpa using this
  have hT := totalPages_eq l
  have hcat : ((List.range (totalPages l)).map
      (fun i : Nat => currentFounders l ((i : Int) + 1))).flatten = l := by
    simp only [hpage]
    rw [pages_flatten, List.take_of_length_le]
    omega
  refine ⟨hcat, ?_, ?_, ?_, ?_⟩
  · have := congrArg List.length hcat
    rw [List.length_flatten, List.map_map] at this
    exact this
  · intro p hp hlt
    rw [currentFounders_length l p hp]
    omega
  · intro h1
    rw [currentFounders_length l _ h1]
    omega
  · intro h
    have := currentFounders_length l 3 (by omega)
    simp only [Nat.cast_ofNat] at this
    rw [this, h]
    rfl

/-- Witness of `pages_cover`: for 14 records, pages 1 and 2 have 6 elements,
page 3 is the last and has 2. -/
theorem pages_cover_witness :
    (currentFounders (List.replicate 14 ada) ((2 : Nat) : Int)).length = 6 ∧
    (1 ≤ (currentFounders (List.replicate 14 ada)
        (totalPages (List.replicate 14 ada) : Int)).length ∧
      (currentFounders (List.replicate 14 ada)
        (totalPages (List.replicate 14 ada) : Int)).length ≤ 6) ∧
    (currentFounders (List.replicate 14 ada) 3).length = 2 :=
  ⟨(pages_cover (List.replicate 14 ada)).2.2.1 2 (by decide)
      (by rw [totalPages_eq]; decide),
    (pages_cover (List.replicate 14 ada)).2.2.2.1
      (by rw [totalPages_eq]; decide),
    (pages_cover (List.replicate 14 ada)).2.2.2.2 rfl⟩

/-- C7. For a page index `p ≥ 1`, `currentFounders` is the contiguous slice of
the list from position `(p-1)*6` up to but excluding position `p*6`, clipped to
the end of the list; when `p` exceeds `totalPages` it is empty. -/
theorem currentFounders_slice (l : List Founder) (p : Nat) (hp : 1 ≤ p) :
    currentFounders l (p : Int) = (l.take (p * 6)).drop ((p - 1) * 6) ∧
    (∀ i : Nat, (currentFounders l (p : Int))[i]? =
      if i < 6 then l[(p - 1) * 6 + i]? else none) ∧
    (totalPages l < p → currentFounders l (p : Int) = []) := by
  have h := currentFounders_nat l p hp
  refine ⟨?_, ?_, ?_⟩
  · rw [h, List.drop_take]
    congr 1
    omega
  · intro i
    rw [h, List.getElem?_take]
    split
    · rw [List.getElem?_drop]
    · rfl
  · intro hlt
    have hl := currentFounders_length l p hp
    have hT := totalPages_eq l
    apply List.eq_nil_of_length_eq_zero
    rw [hl]
    omega

/-- Witness of `currentFounders_slice`: page 3 of 14 records is the two
records at positions 12 and 13, and page 4 is empty. -/
theorem currentFounders_slice_witness :
    currentFounders (List.replicate 12 ada ++ [bo, ada]) ((3 : Nat) : Int) = [bo, ada] ∧
    currentFounders (List.replicate 12 ada ++ [bo, ada]) ((4 : Nat) : Int) = [] :=
  ⟨(currentFounders_slice (List.replicate 12 ada ++ [bo, ada]) 3 (by decide)).1.trans rfl,
    (currentFounders_slice (List.replicate 12 ada ++ [bo, ada]) 4 (by decide)).2.2
      (by rw [totalPages_eq]; decide)⟩

/-- Membership in a returned list, shared by the single-criterion theorems. -/
theorem applyFilters_mem_iff {lower : String → String} {E R : List Founder} {c : Criteria}
    (h : applyFilters lower E c = .ok R) (f : Founder) :
    f ∈ R ↔ f ∈ E ∧ SatisfiesAll lower c f := by
  obtain ⟨hsub, hs, hn, _⟩ := applyFilters_ok_spec h
  refine ⟨fun hf => ⟨hsub.subset hf, hs f hf⟩, ?_⟩
  rintro ⟨hfE, hsat⟩
  by_contra hfR
  exact hn f hfE hfR hsat

/-- C11. With a non-empty interest tag as the only active criterion,
`applyFilters` returns a list, and a founder is in it exactly when the founder
is in the input and the tag is an element of its interests array or of its
lookingFor array; a tag in lookingFor alone, or in interests alone, is enough. -/
theorem interest_only_exact (lower : String → String) (E : List Founder) (t : String)
    (ht : t ≠ "") :
    ∃ R, applyFilters lower E ⟨"", "", "", "", "", "", t, "", ""⟩ = .ok R ∧
      R.Sublist E ∧
      (∀ f, f ∈ R ↔ f ∈ E ∧ ((∃ xs, f.interests = .arr xs ∧ JSVal.str t ∈ xs) ∨
        (∃ xs, f.lookingFor = .arr xs ∧ JSVal.str t ∈ xs))) ∧
      (∀ f ∈ E, (∃ xs, f.lookingFor = .arr xs ∧ JSVal.str t ∈ xs) → f ∈ R) ∧
      (∀ f ∈ E, (∃ xs, f.interests = .arr xs ∧ JSVal.str t ∈ xs) → f ∈ R) := by
  have key : ∀ f, SatisfiesAll lower ⟨"", "", "", "", "", "", t, "", ""⟩ f ↔
      ((∃ xs, f.interests = .arr xs ∧ JSVal.str t ∈ xs) ∨
        (∃ xs, f.lookingFor = .arr xs ∧ JSVal.str t ∈ xs)) := by
    intro f
    simp [SatisfiesAll, InterestMatches, TagIn, ht]
  have htot : ∃ R, applyFilters lower E ⟨"", "", "", "", "", "", t, "", ""⟩ = .ok R := by
    rw [applyFilters_eq_runStages]
    apply runStages_total
    intro f _ s hs hne
    simp only [stages, List.mem_cons, List.not_mem_nil, or_false] at hs
    rcases hs with rfl | rfl | rfl | rfl | rfl | rfl | rfl | rfl | rfl
    all_goals first
      | exact absurd rfl hne
      | exact (interestPred_ok t f).imp (fun _ h => h.1)
  obtain ⟨R, hR⟩ := htot
  have hmem : ∀ f, f ∈ R ↔ f ∈ E ∧ ((∃ xs, f.interests = .arr xs ∧ JSVal.str t ∈ xs) ∨
      (∃ xs, f.lookingFor = .arr xs ∧ JSVal.str t ∈ xs)) := by
    intro f
    rw [applyFilters_mem_iff hR, key]
  exact ⟨R, hR, (applyFilters_ok_spec hR).1, hmem,
    fun f hf h => (hmem f).2 ⟨hf, Or.inr h⟩, fun f hf h => (hmem f).2 ⟨hf, Or.inl h⟩⟩

/-- Witness of `interest_only_exact`: with the tag `Mentorship`, the record
with the tag only in interests and the record with the tag only in lookingFor
are kept, the record with neither array is dropped. -/
theorem interest_only_exact_witness :
    applyFilters asciiLower [cy, bo, dee] mentorshipOnly = .ok [cy, dee] ∧
    cy.lookingFor = .undefined ∧ dee.interests = .undefined ∧
    ∃ R, applyFilters asciiLower [cy, bo, dee] mentorshipOnly = .ok R ∧
      R.Sublist [cy, bo, dee] ∧
      (∀ f, f ∈ R ↔ f ∈ [cy, bo, dee] ∧
        ((∃ xs, f.interests = .arr xs ∧ JSVal.str "Mentorship" ∈ xs) ∨
        (∃ xs, f.lookingFor = .arr xs ∧ JSVal.str "Mentorship" ∈ xs))) ∧
      (∀ f ∈ [cy, bo, dee],
        (∃ xs, f.lookingFor = .arr xs ∧ JSVal.str "Mentorship" ∈ xs) → f ∈ R) ∧
      (∀ f ∈ [cy, bo, dee],
        (∃ xs, f.interests = .arr xs ∧ JSVal.str "Mentorship" ∈ xs) → f ∈ R) :=
  ⟨rfl, rfl, rfl, interest_only_exact asciiLower [cy, bo, dee] "Mentorship" (by decide)⟩

/-- The search callback returns on a record whose name and company are strings
and whose bio is absent or a string. -/
theorem searchPred_total_of_strings (lower : String → String) (q : String) {f : Founder}
    (hn : f.name.isString = true) (hk : f.company.isString = true)
    (hb : f.bio.truthy = true → f.bio.isString = true) :
    ∃ b, searchPred lower q f = .ok b := by
  rw [isString_iff] at hn hk
  obtain ⟨n, hn⟩ := hn
  obtain ⟨k, hk⟩ := hk
  unfold searchPred
  simp only [hn, hk, JSVal.toLowerCase]
  split
  · exact ⟨_, rfl⟩
  · split
    · exact ⟨_, rfl⟩
    · split
      · rename_i ht
        obtain ⟨b, hb⟩ := (isString_iff _).1 (hb ht)
        simp only [hb]
        exact ⟨_, rfl⟩
      · exact ⟨_, rfl⟩

/-- C12. With a non-empty search text as the only active criterion, a list
that `applyFilters` returns contains a founder exactly when the founder is in
the input and the lower-cased text is a substring of the lower-cased name, of
the lower-cased company, or of the lower-cased bio when a bio is present; for
a founder without bio this is a match through name or company alone.  A list
is returned when every record has a string name and company and a bio that is
absent or a string. -/
theorem search_only_exact (lower : String → String) (E : List Founder) (q : String)
    (hq : q ≠ "") :
    (∀ R, applyFilters lower E ⟨q, "", "", "", "", "", "", "", ""⟩ = .ok R →
      R.Sublist E ∧
      (∀ f, f ∈ R ↔ f ∈ E ∧ (LowerContains lower q f.name ∨ LowerContains lower q f.company ∨
        (f.bio.truthy = true ∧ LowerContains lower q f.bio))) ∧
      (∀ f, f.bio.truthy = false →
        (f ∈ R ↔ f ∈ E ∧ (LowerContains lower q f.name ∨ LowerContains lower q f.company)))) ∧
    ((∀ f ∈ E, f.name.isString = true ∧ f.company.isString = true ∧
        (f.bio.truthy = true → f.bio.isString = true)) →
      ∃ R, applyFilters lower E ⟨q, "", "", "", "", "", "", "", ""⟩ = .ok R) := by
  have key : ∀ f, SatisfiesAll lower ⟨q, "", "", "", "", "", "", "", ""⟩ f ↔
      (LowerContains lower q f.name ∨ LowerContains lower q f.company ∨
        (f.bio.truthy = true ∧ LowerContains lower q f.bio)) := by
    intro f
    simp [SatisfiesAll, SearchMatches, hq]
  refine ⟨fun R hR => ⟨(applyFilters_ok_spec hR).1, fun f => ?_, fun f hb => ?_⟩, fun hE => ?_⟩
  · rw [applyFilters_mem_iff hR, key]
  · rw [applyFilters_mem_iff hR, key]
    simp [hb]
  · rw [applyFilters_eq_runStages]
    apply runStages_total
    intro f hf s hs hne
    obtain ⟨hn, hk, hb⟩ := hE f hf
    simp only [stages, List.mem_cons, List.not_mem_nil, or_false] at hs
    rcases hs with rfl | rfl | rfl | rfl | rfl | rfl | rfl | rfl | rfl
    all_goals first
      | exact absurd rfl hne
      | exact searchPred_total_of_strings lower _ hn hk hb

/-- Witness of `search_only_exact`: the text `fin` keeps the record whose
company is `Fintastic` and that has no bio. -/
theorem search_only_exact_witness :
    applyFilters asciiLower [finn, bo] searchFinLower = .ok [finn] ∧
    finn.bio = .undefined ∧
    ([finn].Sublist [finn, bo] ∧
      (∀ f, f ∈ [finn] ↔ f ∈ [finn, bo] ∧
        (LowerContains asciiLower "fin" f.name ∨ LowerContains asciiLower "fin" f.company ∨
          (f.bio.truthy = true ∧ LowerContains asciiLower "fin" f.bio))) ∧
      (∀ f, f.bio.truthy = false →
        (f ∈ [finn] ↔ f ∈ [finn, bo] ∧
          (LowerContains asciiLower "fin" f.name ∨ LowerContains asciiLower "fin" f.company)))) ∧
    (∃ R, applyFilters asciiLower [finn, bo] ⟨"fin", "", "", "", "", "", "", "", ""⟩ = .ok R) :=
  ⟨rfl, rfl, (search_only_exact asciiLower [finn, bo] "fin" (by decide)).1 [finn] rfl,
    (search_only_exact asciiLower [finn, bo] "fin" (by decide)).2
      (by
        intro f hf
        simp only [List.mem_cons, List.not_mem_nil, or_false] at hf
        rcases hf with rfl | rfl <;> exact ⟨rfl, rfl, fun h => absurd h (by decide)⟩)⟩

/-- A successful effect stored the result of `applyFilters` and page 1, and
nothing else. -/
theorem runEffect_eq_ok {lower : String → String} {s s' : State}
    (h : runEffect lower s = .ok s') :
    ∃ results, applyFilters lower s.founders s.criteria = .ok results ∧
      s' = { s with filteredFounders := results, page := 1 } := by
  unfold runEffect at h
  cases hr : applyFilters lower s.founders s.criteria with
  | error e => simp [hr] at h
  | ok results =>
    simp only [hr, if_true, Except.ok.injEq] at h
    exact ⟨results, rfl, h.symm⟩

/-- A change of a filter value, or a new founders array, changes the
dependency array of the effect. -/
theorem changesDeps_of_change (s : State) (ch : Change)
    (hch : (ch.apply s).criteria ≠ s.criteria ∨ ∃ fs, ch = .newFounders fs) :
    ch.changesDeps s = true := by
  rcases hch with h | ⟨fs, rfl⟩
  · cases ch <;> first | rfl | simpa [Change.changesDeps] using h
  · rfl

/-- C13. After a change of a filter value or of the founders list, the effect
re-runs `applyFilters` on the new inputs: a resulting state has page 1,
whatever the page was before, holds the list `applyFilters` returns, and has
the criteria and founders the change stored; the effect itself changes no
criterion.  On well-formed records, with an industry focus that is not an
inherited property name, there is a resulting state. -/
theorem effect_resets_page (lower : String → String) (s : State) (ch : Change)
    (hch : (ch.apply s).criteria ≠ s.criteria ∨ ∃ fs, ch = .newFounders fs) :
    (∀ s', step lower s ch = .ok s' →
      s'.page = 1 ∧ s'.criteria = (ch.apply s).criteria ∧
      s'.founders = (ch.apply s).founders ∧
      applyFilters lower (ch.apply s).founders (ch.apply s).criteria = .ok s'.filteredFounders) ∧
    (∀ t t', runEffect lower t = .ok t' → t'.page = 1 ∧ t'.criteria = t.criteria) ∧
    ((∀ f ∈ (ch.apply s).founders, f.wellFormed = true) →
      (ch.apply s).criteria.industryFocus ∉ objectPrototypeKeys →
      ∃ s', step lower s ch = .ok s' ∧ s'.page = 1) := by
  have hd := changesDeps_of_change s ch hch
  refine ⟨fun s' h => ?_, fun t t' h => ?_, fun hE hc => ?_⟩
  · rw [step, if_pos hd] at h
    obtain ⟨results, hr, rfl⟩ := runEffect_eq_ok h
    exact ⟨rfl, rfl, rfl, hr⟩
  · obtain ⟨results, _, rfl⟩ := runEffect_eq_ok h
    exact ⟨rfl, rfl⟩
  · obtain ⟨R, hR⟩ := applyFilters_total lower _ _ hE hc
    refine ⟨{ ch.apply s with filteredFounders := R, page := 1 }, ?_, rfl⟩
    rw [step, if_pos hd]
    simp [runEffect, hR]

/-- Witness of `effect_resets_page`: from page 7, setting the search text to
`FIN` leaves one founder and page 1. -/
theorem effect_resets_page_witness :
    farPage.page = 7 ∧
    step asciiLower farPage (.setSearchQuery "FIN") =
      .ok { founders := [ada, bo], criteria := searchFin, filteredFounders := [ada], page := 1 } ∧
    (∃ s', step asciiLower farPage (.setSearchQuery "FIN") = .ok s' ∧ s'.page = 1) :=
  ⟨rfl, rfl,
    (effect_resets_page asciiLower farPage (.setSearchQuery "FIN")
      (Or.inl (by decide))).2.2
      (by
        intro f hf
        simp only [Change.apply, farPage, List.mem_cons, List.not_mem_nil, or_false] at hf
        rcases hf with rfl | rfl <;> rfl)
      (by decide)⟩

/-- A string that is none of the five keys has no own property in `industryMap`. -/
theorem industryMapOwn_lookup_none {k : String}
    (hown : k ∉ ["Tech", "Finance", "Healthcare", "Education", "Other"]) :
    industryMapOwn.lookup k = none := by
  cases h : industryMapOwn.lookup k with
  | none => rfl
  | some xs =>
    exfalso
    apply hown
    have hm := (industryMapOwn_lookup k xs).1 h
    simp only [industryMapOwn, List.mem_cons, Prod.mk.injEq, List.not_mem_nil, or_false] at hm
    simp only [List.mem_cons, List.not_mem_nil, or_false]
    rcases hm with h1 | h1 | h1 | h1 | h1 <;> simp [h1.1]

/-- C9, amended. For a non-empty industry focus that is neither one of the five
keys of `industryMap` nor a property name inherited from `Object.prototype`,
the lookup falls back to the empty list, the industry block returns the empty
list on every founder list without raising, `applyFilters` with that focus as
the only active criterion returns the empty list, and with any criteria of
that focus every list `applyFilters` returns is empty. -/
theorem unknown_focus_returns_empty (lower : String → String) (k : String) (hne : k ≠ "")
    (hown : k ∉ ["Tech", "Finance", "Healthcare", "Education", "Other"])
    (hk : k ∉ objectPrototypeKeys) (E : List Founder) :
    (∀ v, (mappedIndustries k).includes v = .ok false) ∧
    stage k (fun founder => (mappedIndustries k).includes founder.industry) E = .ok [] ∧
    applyFilters lower E ⟨"", "", "", "", "", k, "", "", ""⟩ = .ok [] ∧
    (∀ c R, c.industryFocus = k → applyFilters lower E c = .ok R → R = []) := by
  have hl := industryMapOwn_lookup_none hown
  have hstage := unknown_focus_empty k hne hl hk
  refine ⟨fun v => ?_, hstage E, ?_, ?_⟩
  · simp [mappedIndustries, hl, hk, Mapped.includes]
  · rw [applyFilters_eq_runStages]
    simp only [stages, runStages]
    have hskip : ∀ (p : Founder → Except JSError Bool) (l : List Founder),
        stage "" p l = .ok l := fun p l => by simp [stage]
    simp only [hskip, hstage]
  · rintro c R rfl hR
    apply List.eq_nil_iff_forall_not_mem.2
    intro f hf
    have hsat := (applyFilters_ok_spec hR).2.1 f hf
    obtain ⟨xs, hx, _⟩ := hsat.2.2.2.2.2.1 hne
    have := (industryMapOwn_lookup _ xs).2 hx
    rw [hl] at this
    cases this

/-- Witness of `unknown_focus_returns_empty`: the focus `Space` on two records. -/
theorem unknown_focus_returns_empty_witness :
    focusSpace.industryFocus = "Space" ∧
    (∀ v, (mappedIndustries "Space").includes v = .ok false) ∧
    stage "Space" (fun founder => (mappedIndustries "Space").includes founder.industry)
      [ada, bo] = .ok [] ∧
    applyFilters asciiLower [ada, bo] ⟨"", "", "", "", "", "Space", "", "", ""⟩ = .ok [] ∧
    (∀ c R, c.industryFocus = "Space" → applyFilters asciiLower [ada, bo] c = .ok R → R = []) :=
  ⟨rfl, unknown_focus_returns_empty asciiLower "Space" (by decide) (by decide) (by decide)
    [ada, bo]⟩

end Founders
